import Mathlib

/-!
Verification of the go-wordle-solving repository: a shallow embedding of the
bitset primitive (src/bitvector.go, src/unnamed/part_003), the feedback codec
and search engine (src/api/wordle.go, src/unnamed/part_001), the structural
constraint engine and its precomputed bitset counterpart (src/unnamed/part_000,
src/precompute.go), and the alternate hint constructor (src/hint/hint.go).
Go strings are modelled as lists of byte values; machine integers as Nat with
explicit mod where wraparound can occur; Go panics as Option.none.
-/

set_option maxHeartbeats 1000000

namespace WordleSolving

/-- Bytes of a Go string: words are modelled as their byte-value lists. -/
abbrev Word := List Nat

/-! ### Bitset primitive (src/bitvector.go and src/unnamed/part_003)

The two source variants `Bitvector` and `Bitvec` have identical `Set`, `Get`,
`And` and `Count` behaviour; `Bitvec` carries an extra `Size` field that none
of the claimed operations ever read, so one structure embeds both. -/

/-- Number of set bits among the low 64 bits, modelling `math/bits.OnesCount64`
(stored words always stay below 2^64, where this agrees with the popcount). -/
def popCount64 (w : Nat) : Nat := (List.range 64).countP (fun b => w.testBit b)

/-- A bitset over word indices with an incrementally tracked count. -/
structure Bitvector where
  bytes : List Nat
  count : Nat
deriving DecidableEq, Repr

/-- `NewBitvector(size)`: `(size+63)/64` zero words and count 0. -/
def newBitvector (size : Nat) : Bitvector :=
  { bytes := List.replicate ((size + 63) / 64) 0, count := 0 }

/-- `Bitvector.Set`. An out-of-range index panics in Go (`Bytes[index/64]`);
the callers modelled in this file only reach the in-range branch, and the
panicking call sites are guarded explicitly (see `findBestGuessModel`). -/
def Bitvector.set (bv : Bitvector) (i : Nat) : Bitvector :=
  if i / 64 < bv.bytes.length then
    if (bv.bytes.getD (i / 64) 0).testBit (i % 64) then bv
    else { bytes := bv.bytes.set (i / 64) ((bv.bytes.getD (i / 64) 0) ||| (1 <<< (i % 64))),
           count := bv.count + 1 }
  else bv

/-- `Bitvector.Get`, total on the in-range domain the program uses
(out of range it reads the bit as unset instead of panicking). -/
def Bitvector.mem (bv : Bitvector) (i : Nat) : Bool :=
  (bv.bytes.getD (i / 64) 0).testBit (i % 64)

/-- `Bitvector.And`: word-parallel AND truncated to the shorter operand,
with the count recomputed by popcount of the result words. -/
def Bitvector.and (bv other : Bitvector) : Bitvector :=
  let bytesR := List.zipWith (fun a b => a &&& b) bv.bytes other.bytes
  { bytes := bytesR, count := (bytesR.map popCount64).sum }

/-- Modelled from the spec: `GetSetIndices` is called by `DemoMain`
(src/unnamed/part_000) but its definition is not among the sources; per the
bitset contract of spec sections 3 and 8 it returns the ascending indices of
the set bits. -/
def Bitvector.getSetIndices (bv : Bitvector) : List Nat :=
  (List.range (64 * bv.bytes.length)).filter (fun i => bv.mem i)

/-! ### Feedback codec: getHint (src/api/wordle.go:173, src/unnamed/part_001:227) -/

/-- A write into the Go array `charHints [5]uint8`, modelled as a function
update; a write beyond index 4 is an index-out-of-range panic (`none`). -/
def writeHint (arr : Nat → Nat) (i v : Nat) : Option (Nat → Nat) :=
  if i < 5 then some (fun j => if j = i then v else arr j) else none

/-- The loop of `getHint` over the guess bytes: position `i` is tagged 2 when
`answer[i] == guess[i]`, else 1 when the byte occurs anywhere in the answer
(`strings.ContainsRune`), else left 0. `none` models a Go panic, either from
reading `answer[i]` past the answer's end or from writing `charHints[i]` past
index 4. -/
def getHintLoop (answer : Word) : Word → Nat → (Nat → Nat) → Option (Nat → Nat)
  | [], _, arr => some arr
  | ch :: rest, i, arr =>
    if i < answer.length then
      if answer.getD i 0 = ch then
        (writeHint arr i 2).bind (fun a2 => getHintLoop answer rest (i + 1) a2)
      else if ch ∈ answer then
        (writeHint arr i 1).bind (fun a2 => getHintLoop answer rest (i + 1) a2)
      else getHintLoop answer rest (i + 1) arr
    else none

/-- The accumulation `ret = ret*3 + d` over the five tags, in a uint8. -/
def hintFold (ds : List Nat) : Nat := ds.foldl (fun r d => (r * 3 + d) % 256) 0

/-- `getHint(guess, answer)`: the per-position tags followed by the base-3
accumulation; `none` models a panic. -/
def getHintCore (guess answer : Word) : Option Nat :=
  (getHintLoop answer guess 0 (fun _ => 0)).map
    (fun arr => hintFold [arr 0, arr 1, arr 2, arr 3, arr 4])

/-- Total wrapper for `getHint` on the length-5 vocabulary domain, where the
core never panics. -/
def getHintT (guess answer : Word) : Nat := (getHintCore guess answer).getD 0

/-- The five per-position tags `getHint` computes on length-5 inputs. -/
def charHintsOf (guess answer : Word) : List Nat :=
  (List.range 5).map (fun i =>
    if answer.getD i 0 = guess.getD i 0 then 2
    else if guess.getD i 0 ∈ answer then 1 else 0)

/-- The digit-recovery loop of `Hint.ColoredWord` (src/unnamed/part_001:274):
for i from 4 down to 0, `digits[i] = v % 3; v /= 3`. -/
def digitsRev : Nat → Nat → List Nat
  | 0, _ => []
  | n + 1, v => digitsRev n (v / 3) ++ [v % 3]

/-- The decoded five-digit sequence of a hint code, most significant first. -/
def decodeDigits (h : Nat) : List Nat := digitsRev 5 h

/-! ### Candidate index (calculateHints / calculateBitvecs, src/api/wordle.go:39) -/

/-- The bucket bitvector the pair `calculateHints`/`calculateBitvecs` builds for
a guess and a feedback code `h`: bit `answerIdx` is set exactly when
`getHint(guess, answers[answerIdx]) == h` (the hint stored in `answerHints`). -/
def hintBucket (guess : Word) (answers : List Word) (h : Nat) : Bitvector :=
  (List.range answers.length).foldl
    (fun bv i => if getHintT guess (answers.getD i []) = h then bv.set i else bv)
    (newBitvector answers.length)

/-! ### Scoring (AvgNumCandidates / MaxNumCandidates, src/api/wordle.go:206) -/

/-- The per-answer filtering loop shared verbatim by `AvgNumCandidates` and
`MaxNumCandidates`: before each follow-up intersection, a running count of at
most 2 short-circuits with contribution 1; otherwise the loop intersects and,
at the end, contributes the final count. -/
def candLoop (bv : Bitvector) : List Bitvector → Nat
  | [] => bv.count
  | g :: gs => if bv.count ≤ 2 then 1 else candLoop (bv.and g) gs

/-- The integer-valued total accumulated by `AvgNumCandidates` before the final
division by `len(answers)` (all addends are small integers, so the Go float64
sum is exact). The global `guessesMap` lookup is passed as `lookup`. -/
def AvgNumCandidatesNum (lookup : Word → Word → Bitvector) (answers : List Word)
    (first : Word) (rest : List Word) : Nat :=
  answers.foldl
    (fun tot a => tot + candLoop (lookup first a) (rest.map (fun g => lookup g a))) 0

/-- `MaxNumCandidates`, with the same per-answer loop, taking max from seed 1. -/
def MaxNumCandidates (lookup : Word → Word → Bitvector) (answers : List Word)
    (first : Word) (rest : List Word) : Nat :=
  answers.foldl
    (fun r a => max r (candLoop (lookup first a) (rest.map (fun g => lookup g a)))) 1

/-! ### Guess-pair search (findBestGuess, src/api/wordle.go:109, part_001:163) -/

/-- `j := int(guess[i] - 'a')` with Go's uint8 wraparound. -/
def letterIdx (c : Nat) : Nat := (c + 256 - 97) % 256

/-- The 26-bit letter-presence mask `findBestGuess` builds for a guess. -/
def letterMask (g : Word) : Bitvector :=
  (List.range 5).foldl (fun bv i => bv.set (letterIdx (g.getD i 0))) (newBitvector 26)

/-- The guesses surviving `findBestGuess`'s Count == 5 filter. -/
def filteredGuesses (guesses : List Word) : List Word :=
  guesses.filter (fun g => (letterMask g).count = 5)

/-- The index pairs on which the pairing loop of `findBestGuess` actually calls
the scoring function: `i` ranges over the first `n-1` filtered guesses, `j`
over `i+1 .. n-1`, and a pair whose letter masks intersect is skipped by the
`continue` before any scoring. -/
def pairsEvaluated (guesses : List Word) : List (Nat × Nat) :=
  let fil := filteredGuesses guesses
  let masks := fil.map letterMask
  (List.range (fil.length - 1)).flatMap (fun i =>
    ((List.range (fil.length - (i + 1))).map (fun k => i + 1 + k)).filterMap (fun j =>
      if ((masks.getD i (newBitvector 26)).and (masks.getD j (newBitvector 26))).count = 0
      then some (i, j) else none))

/-- The domain on which the mask-building loop of `findBestGuess` does not
panic: five readable bytes, each mapped by `letterIdx` to a bit index below
64 = 64 * numBytes(26); bytes outside 97..160 make `Set` index past `Bytes`. -/
def maskSafe (g : Word) : Bool :=
  5 ≤ g.length && (g.take 5).all (fun c => 97 ≤ c && c ≤ 160)

/-- `findBestGuess`, sequentialized (the spec fixes the score to be
order-independent; ties keep the first encountered minimum). `none` models a
Go panic: either in the mask-building loop, or the unconditional reads
`filteredGuesses[0]` / `filteredGuesses[1]` when fewer than two guesses
survive the filter. The scoring function (`MaxNumCandidates` over the global
tables) is passed in as `score`. -/
def findBestGuessModel (score : Word → Word → Nat) (guesses : List Word) :
    Option (Word × Word × Nat) :=
  if guesses.all maskSafe then
    let fil := filteredGuesses guesses
    if 2 ≤ fil.length then
      let seed := (fil.getD 0 [], fil.getD 1 [], score (fil.getD 0 []) (fil.getD 1 []))
      some ((pairsEvaluated guesses).foldl
        (fun best p =>
          let v := score (fil.getD p.1 []) (fil.getD p.2 [])
          if v < best.2.2 then (fil.getD p.1 [], fil.getD p.2 [], v) else best)
        seed)
    else none
  else none

/-! ### Letter constraints (src/precompute.go, src/unnamed/part_000) -/

/-- `LetterInfo` (src/precompute.go:14). -/
structure LetterInfo where
  mustBe : List Nat
  cantBe : List Nat
  freq : Nat
  exact : Bool
deriving DecidableEq, Repr

/-- Insertion into a sorted list, for `sort.Ints` in `Canonical`. -/
def insertSorted (x : Nat) : List Nat → List Nat
  | [] => [x]
  | y :: ys => if x ≤ y then x :: y :: ys else y :: insertSorted x ys

/-- `sort.Ints` on a copy, as used by `LetterInfo.Canonical`. -/
def sortNat (l : List Nat) : List Nat := l.foldr insertSorted []

/-- `LetterInfo.Canonical` (src/precompute.go:21): the canonical field
representation with both position lists sorted. The Go code formats this
tuple as a string and hashes it with sha256; both are injective on the
canonical tuple (spec sections 4.2 and 9), so the tuple itself is the model
of the hash key. -/
def LetterInfo.canonical (l : LetterInfo) : List Nat × List Nat × Nat × Bool :=
  (sortNat l.mustBe, sortNat l.cantBe, l.freq, l.exact)

/-- `LetterInfo.IsValid` (src/precompute.go:40). -/
def LetterInfo.isValid (l : LetterInfo) : Bool :=
  if l.freq = 0 then l.mustBe.isEmpty && l.exact
  else if l.freq < l.mustBe.length then false
  else l.mustBe.all (fun p => ¬ p ∈ l.cantBe)

/-- The positions encoded by a 5-bit mask, in increasing order, as extracted
by the loops of `GenerateAllLetterInfos`. -/
def positionsOf (bits : Nat) : List Nat :=
  (List.range 5).filter (fun p => bits.testBit p)

/-- `GenerateAllLetterInfos` (src/precompute.go:78): every valid constraint
descriptor for word length 5 with frequency capped at 3. The Go inner loop
abandons a `cantBits` mask at the first overlap with `mustPositions`, which is
an any-overlap rejection. -/
def GenerateAllLetterInfos : List LetterInfo :=
  (List.range 4).flatMap (fun freq =>
    (List.range 2).flatMap (fun exactness =>
      (List.range 32).flatMap (fun mustBits =>
        let must := positionsOf mustBits
        if freq < must.length then []
        else (List.range 32).filterMap (fun cantBits =>
          let cant := positionsOf cantBits
          if cant.any (fun p => p ∈ must) then none
          else
            let info : LetterInfo :=
              { mustBe := must, cantBe := cant, freq := freq,
                exact := exactness = 1 }
            if info.isValid then some info else none))))

/-- The letter-frequency count over a word's first five bytes, as computed by
the `for i := range 5 { freq[word[i]]++ }` loops. -/
def freqIn (word : Word) (c : Nat) : Nat := (word.take 5).count c

/-- The per-letter check inside `WordSatisfiesConstraints` (part_000:32). -/
def wscLetter (word : Word) (c : Nat) (info : LetterInfo) : Bool :=
  (if info.exact then freqIn word c = info.freq else info.freq ≤ freqIn word c) &&
  info.mustBe.all (fun p => word.getD p 0 = c) &&
  info.cantBe.all (fun p => ¬ word.getD p 0 = c)

/-- `TestLetterConstraint` (part_000:235): like `wscLetter` but with a
dedicated zero-frequency branch. -/
def TestLetterConstraint (word : Word) (c : Nat) (info : LetterInfo) : Bool :=
  (if info.freq = 0 then freqIn word c = 0
   else if info.exact then freqIn word c = info.freq
   else info.freq ≤ freqIn word c) &&
  info.mustBe.all (fun p => word.getD p 0 = c) &&
  info.cantBe.all (fun p => ¬ word.getD p 0 = c)

/-- `WordleAnalysis` (part_000:14); the Go letter-keyed map is modelled as an
association list in first-occurrence order of the guess's letters. -/
structure WordleAnalysis where
  target : Word
  guess : Word
  letterInfos : List (Nat × LetterInfo)
deriving DecidableEq, Repr

/-- `WordSatisfiesConstraints` (part_000:32): the word's frequencies and
positions pass every letter constraint. -/
def WordleAnalysis.wordSatisfiesConstraints (w : WordleAnalysis) (word : Word) : Bool :=
  w.letterInfos.all (fun p => wscLetter word p.1 p.2)

/-- `FilterWords` (part_000:21). -/
def WordleAnalysis.filterWords (w : WordleAnalysis) (candidates : List Word) : List Word :=
  candidates.filter (fun word => w.wordSatisfiesConstraints word)

/-- Map update on the letter-keyed association list. -/
def updInfo (infos : List (Nat × LetterInfo)) (c : Nat) (f : LetterInfo → LetterInfo) :
    List (Nat × LetterInfo) :=
  infos.map (fun p => if p.1 = c then (p.1, f p.2) else p)

/-- The state threaded through `AnalyzeWordle`'s passes: the letter infos and
the `usedInstances` counters. -/
structure AnalyzeState where
  infos : List (Nat × LetterInfo)
  used : Nat → Nat

/-- `AnalyzeWordle` (part_000:105): initialization of one default `LetterInfo`
per distinct guess letter, the correct-position pass, the wrong-position and
frequency pass, and the final exactness pass. -/
def AnalyzeWordle (target guess : Word) : WordleAnalysis :=
  let init : AnalyzeState :=
    { infos := (List.range 5).foldl
        (fun acc i =>
          let c := guess.getD i 0
          if acc.any (fun p => p.1 = c) then acc
          else acc ++ [(c, { mustBe := [], cantBe := [], freq := 0, exact := false })])
        [],
      used := fun _ => 0 }
  let st1 : AnalyzeState :=
    (List.range 5).foldl
      (fun st i =>
        let c := guess.getD i 0
        if c = target.getD i 0 then
          let used2 := fun x => if x = c then st.used x + 1 else st.used x
          { infos := updInfo st.infos c (fun info =>
              { info with mustBe := info.mustBe ++ [i],
                          freq := max info.freq (used2 c) }),
            used := used2 }
        else st)
      init
  let st2 : AnalyzeState :=
    (List.range 5).foldl
      (fun st i =>
        let c := guess.getD i 0
        if c = target.getD i 0 then st
        else
          let tc := freqIn target c
          let uc := st.used c
          if tc = 0 then
            { st with infos := updInfo st.infos c (fun info =>
                { info with freq := 0, exact := true }) }
          else if uc < tc then
            let used2 := fun x => if x = c then st.used x + 1 else st.used x
            { infos := updInfo st.infos c (fun info =>
                { info with cantBe := info.cantBe ++ [i],
                            freq := max info.freq (used2 c) }),
              used := used2 }
          else
            { st with infos := updInfo st.infos c (fun info =>
                { info with cantBe := info.cantBe ++ [i],
                            freq := tc, exact := true }) })
      st1
  { target := target, guess := guess,
    letterInfos := st2.infos.map (fun p =>
      if ¬ p.2.exact && 0 < p.2.freq && p.2.mustBe.length = p.2.freq
      then (p.1, { p.2 with exact := true }) else p) }

/-! ### Precomputed constraint bitvectors (part_000:277) and DemoMain's bitset
path (part_000:350) -/

/-- The bitvector `BuildPrecomputedConstraints` stores for one (letter, info)
pair: bit `i` is set iff `TestLetterConstraint(words[i], letter, info)`. -/
def buildConstraintBv (words : List Word) (c : Nat) (info : LetterInfo) : Bitvector :=
  (List.range words.length).foldl
    (fun bv i => if TestLetterConstraint (words.getD i []) c info then bv.set i else bv)
    (newBitvector words.length)

/-- The lookup `precomputed.Constraints[key.Hash()]`: the map is populated by
iterating letters then `GenerateAllLetterInfos` with a skip-if-present check,
and the sha256 key is injective on (letter, canonical info), so the entry
found is the bitvector built from the first generated info whose canonical
form matches. -/
def lookupConstraint (words : List Word) (c : Nat) (info : LetterInfo) : Option Bitvector :=
  match GenerateAllLetterInfos.find? (fun i2 => i2.canonical = info.canonical) with
  | some i2 => some (buildConstraintBv words c i2)
  | none => none

/-- The all-candidates start bitvector of `validWordsFunc`: a fresh bitvector
with every index below `n` set. -/
def startBv (n : Nat) : Bitvector :=
  (List.range n).foldl (fun bv i => bv.set i) (newBitvector n)

/-- The constraint-application loop of `validWordsFunc`: AND the precomputed
bitvector of every constraint that has a database entry; a missing entry is
silently skipped. -/
def constraintFold (words : List Word) (infos : List (Nat × LetterInfo))
    (acc : Bitvector) : Bitvector :=
  infos.foldl
    (fun acc p =>
      match lookupConstraint words p.1 p.2 with
      | some bv => acc.and bv
      | none => acc)
    acc

/-- `validWordsFunc`, the bitset path of `DemoMain` (part_000:350): start from
an all-set bitvector over the candidates, AND the constraint bitvectors, and
read back the selected words. -/
def validWordsFunc (words candidates : List Word)
    (infos : List (Nat × LetterInfo)) : List Word :=
  if candidates.isEmpty then []
  else
    (constraintFold words infos (startBv candidates.length)).getSetIndices.foldl
      (fun acc idx =>
        if idx < candidates.length then acc ++ [candidates.getD idx []] else acc)
      []

/-! ### The alternate hint constructor (src/hint/hint.go) -/

/-- `Duplicate` (src/hint/hint.go:7). -/
structure DuplicateRec where
  char : Nat
  greenIdxs : List Nat
  possibleIdxs : List Nat
  impossibleIdxs : List Nat
  cnt : Nat
  hasGray : Bool
deriving DecidableEq, Repr

/-- `Green` (src/hint/hint.go:23). -/
structure GreenRec where
  char : Nat
  idx : Nat
deriving DecidableEq, Repr

/-- `Yellow` (src/hint/hint.go:28). -/
structure YellowRec where
  impossibleIdx : Nat
  possibleIdxs : List Nat
deriving DecidableEq, Repr

/-- `Hint` (src/hint/hint.go:35): the [5]int sequence, the base-3 rank, and
the derived constraint fields. -/
structure HintRec where
  sequence : List Nat
  rank : Nat
  duplicates : List DuplicateRec
  greens : List GreenRec
  yellows : List YellowRec
  grays : List Bool
deriving DecidableEq, Repr

/-- The zero `Hint` record (Go zero values of all fields). -/
def hintZero : HintRec :=
  { sequence := List.replicate 5 0, rank := 0, duplicates := [], greens := [],
    yellows := [], grays := List.replicate 26 false }

/-- One iteration of `hint.New`'s first loop (src/hint/hint.go:49): record the
green when the letters match, and assign `sequence[i] = 2` unconditionally (the
assignment sits outside the `if` in the source). -/
def greensPassStep (guess answer : Word) (h : HintRec) (i : Nat) : HintRec :=
  let h2 := if guess.getD i 0 = answer.getD i 0 then
      { h with greens := h.greens ++ [{ char := guess.getD i 0, idx := i }] }
    else h
  { h2 with sequence := h2.sequence.set i 2 }

/-- The first loop of `hint.New`. -/
def greensPass (guess answer : Word) : HintRec :=
  (List.range 5).foldl (greensPassStep guess answer) hintZero

/-- The `unHintedAtChars` collection loop of `hint.New` (src/hint/hint.go:57). -/
def unHintedChars (answer : Word) (h1 : HintRec) : List Nat :=
  (List.range 5).foldl
    (fun acc i => if h1.sequence.getD i 0 = 0 then acc ++ [answer.getD i 0] else acc) []

/-- One iteration of `hint.New`'s second loop (src/hint/hint.go:64), with
leftmost-occurrence removal (`slices.Index` followed by `slices.Remove` is
`List.erase`). -/
def yellowsPassStep (guess : Word) (st : HintRec × List Nat) (i : Nat) :
    HintRec × List Nat :=
  if st.1.sequence.getD i 0 = 2 then st
  else
    if guess.getD i 0 ∈ st.2 then
      ({ st.1 with sequence := st.1.sequence.set i 1 }, st.2.erase (guess.getD i 0))
    else st

/-- `hint.New` (src/hint/hint.go:45): greens pass, un-hinted-at character
collection, yellows pass. -/
def NewHint (guess answer : Word) : HintRec :=
  ((List.range 5).foldl (yellowsPassStep guess)
    (greensPass guess answer, unHintedChars answer (greensPass guess answer))).1

/-! ### Concrete words used in the claims (byte values of ASCII strings) -/

/-- The guess "speed". -/
def speedW : Word := [115, 112, 101, 101, 100]

/-- The answer "abide". -/
def abideW : Word := [97, 98, 105, 100, 101]

/-- The word "abcde". -/
def abcdeW : Word := [97, 98, 99, 100, 101]

/-- The word "eeeee" (the letter e five times). -/
def eeeeeW : Word := [101, 101, 101, 101, 101]

/-- The word "aabbb". -/
def aabbbW : Word := [97, 97, 98, 98, 98]

/-- The word "ccccc". -/
def cccccW : Word := [99, 99, 99, 99, 99]

/-! ## Helper lemmas about lists -/

theorem getD_zipWith_land : ∀ (as bs : List Nat) (n : Nat),
    (List.zipWith (fun a b => a &&& b) as bs).getD n 0 = (as.getD n 0) &&& (bs.getD n 0)
  | [], bs, n => by simp
  | a :: as, [], n => by simp
  | a :: as, b :: bs, 0 => rfl
  | a :: as, b :: bs, n + 1 => by simpa using getD_zipWith_land as bs n

theorem getD_set_self (l : List Nat) (n v : Nat) (h : n < l.length) :
    (l.set n v).getD n 0 = v := by
  simp [List.getElem?_set_self h]

theorem getD_set_ne (l : List Nat) (m n v : Nat) (h : m ≠ n) :
    (l.set m v).getD n 0 = l.getD n 0 := by
  simp [List.getElem?_set_ne h]

theorem foldl_plus_eq_sum (f : α → Nat) : ∀ (l : List α) (init : Nat),
    l.foldl (fun t a => t + f a) init = init + (l.map f).sum
  | [], init => by simp
  | a :: l, init => by
      simp only [List.foldl_cons, List.map_cons, List.sum_cons]
      rw [foldl_plus_eq_sum f l (init + f a)]
      omega

theorem foldl_append_if_lt (cands : List Word) :
    ∀ (l : List Nat) (acc : List Word), (∀ x ∈ l, x < cands.length) →
      l.foldl (fun acc idx =>
          if idx < cands.length then acc ++ [cands.getD idx []] else acc) acc
        = acc ++ l.map (fun idx => cands.getD idx [])
  | [], acc, _ => by simp
  | x :: l, acc, h => by
      have hx : x < cands.length := h x (by simp)
      simp only [List.foldl_cons, if_pos hx, List.map_cons]
      rw [foldl_append_if_lt cands l (acc ++ [cands.getD x []]) (fun y hy => h y (by simp [hy]))]
      simp

theorem map_getD_range {α : Type} (d : α) : ∀ (l : List α),
    (List.range l.length).map (fun i => l.getD i d) = l
  | [] => by simp
  | w :: l => by
      simp only [List.length_cons, List.range_succ_eq_map, List.map_cons, List.getD_cons_zero,
        List.map_map]
      have : ((fun i => (w :: l).getD i d) ∘ Nat.succ) = (fun i => l.getD i d) := by
        funext i; simp
      rw [this, map_getD_range d l]

theorem filter_range_of_bounded (p : Nat → Bool) (n m : Nat) (hnm : n ≤ m)
    (hp : ∀ i, p i = true → i < n) :
    (List.range m).filter p = (List.range n).filter p := by
  obtain ⟨k, rfl⟩ : ∃ k, m = n + k := ⟨m - n, by omega⟩
  rw [List.range_add, List.filter_append]
  have : ((List.range k).map (n + ·)).filter p = [] := by
    rw [List.filter_eq_nil_iff]
    intro a ha
    obtain ⟨b, _, rfl⟩ := List.mem_map.mp ha
    intro hpa
    have := hp _ hpa
    omega
  simp [this]

theorem filter_map_getD_eq_filter (q : Word → Bool) : ∀ (l : List Word),
    ((List.range l.length).filter (fun i => q (l.getD i []))).map (fun i => l.getD i [])
      = l.filter q
  | [] => by simp
  | w :: l => by
      have hfil : ((fun i => q ((w :: l).getD i [])) ∘ Nat.succ)
          = (fun i => q (l.getD i [])) := by funext i; simp
      have hgd : ((fun i => (w :: l).getD i []) ∘ Nat.succ)
          = (fun i => l.getD i []) := by funext i; simp
      simp only [List.length_cons, List.range_succ_eq_map, List.filter_cons,
        List.getD_cons_zero]
      rw [List.filter_map Nat.succ (List.range l.length), hfil]
      by_cases hq : q w
      · simp only [hq, if_pos, List.map_cons, List.map_map, hgd, List.getD_cons_zero,
          filter_map_getD_eq_filter q l, List.filter_cons, ite_true]
      · simp only [hq, Bool.false_eq_true, if_false, List.map_map, hgd,
          filter_map_getD_eq_filter q l, List.filter_cons, ite_false]

theorem countP_cond_or_eq (q : Nat → Bool) (j : Nat) :
    ∀ (l : List Nat), l.Nodup → j ∈ l → q j = false →
      l.countP (fun i => q i || decide (i = j)) = l.countP q + 1
  | [], _, hj, _ => absurd hj (List.not_mem_nil j)
  | x :: l, hnd, hj, hq => by
      have hnd2 := List.nodup_cons.mp hnd
      by_cases hxj : x = j
      · subst hxj
        have heq : l.countP (fun i => q i || decide (i = x)) = l.countP q :=
          List.countP_congr (fun a ha => by
            have hax : ¬ a = x := fun h => hnd2.1 (h ▸ ha)
            simp [hax])
        simp only [List.countP_cons, heq]
        simp [hq]
      · have hjl : j ∈ l := by
          rcases List.mem_cons.mp hj with h | h
          · exact absurd h.symm hxj
          · exact h
        simp only [List.countP_cons, countP_cond_or_eq q j l hnd2.2 hjl hq]
        by_cases hqx : q x <;> simp [hqx, hxj]

theorem countP_cond_or_eq_true (q : Nat → Bool) (j : Nat) :
    ∀ (l : List Nat), q j = true →
      l.countP (fun i => q i || decide (i = j)) = l.countP q
  | [], _ => rfl
  | x :: l, hq => by
      simp only [List.countP_cons, countP_cond_or_eq_true q j l hq]
      by_cases hxj : x = j
      · subst hxj; simp [hq]
      · simp [hxj]

/-! ## Bitvector lemmas -/

theorem mem_newBitvector (n i : Nat) : (newBitvector n).mem i = false := by
  unfold newBitvector Bitvector.mem
  simp only [List.getD_eq_getElem?_getD, List.getElem?_replicate]
  split <;> simp

theorem bytes_length_newBitvector (n : Nat) :
    (newBitvector n).bytes.length = (n + 63) / 64 := by
  simp [newBitvector]

theorem bytes_length_set (bv : Bitvector) (j : Nat) :
    (bv.set j).bytes.length = bv.bytes.length := by
  unfold Bitvector.set
  split
  · split
    · rfl
    · simp
  · rfl

theorem mem_set_of_lt (bv : Bitvector) (j i : Nat) (hj : j / 64 < bv.bytes.length) :
    (bv.set j).mem i = (bv.mem i || decide (i = j)) := by
  unfold Bitvector.set Bitvector.mem
  rw [if_pos hj]
  by_cases hb : (bv.bytes.getD (j / 64) 0).testBit (j % 64) = true
  · rw [if_pos hb]
    by_cases hij : i = j
    · subst hij
      rw [hb]
      simp
    · simp [hij]
  · rw [if_neg hb]
    by_cases hw : i / 64 = j / 64
    · show ((bv.bytes.set (j / 64) _).getD (i / 64) 0).testBit (i % 64) = _
      rw [hw, getD_set_self _ _ _ hj, Nat.testBit_lor]
      have h2 : (1 <<< (j % 64)).testBit (i % 64) = decide (i = j) := by
        rw [Nat.shiftLeft_eq, Nat.one_mul, Nat.testBit_two_pow]
        apply decide_eq_decide.mpr
        omega
      rw [h2]
    · show ((bv.bytes.set (j / 64) _).getD (i / 64) 0).testBit (i % 64) = _
      rw [getD_set_ne _ _ _ _ (fun h => hw h.symm)]
      have h2 : decide (i = j) = false := by
        apply decide_eq_false
        intro h
        exact hw (by rw [h])
      simp [h2, Bitvector.mem]

theorem bytes_length_foldl_set : ∀ (js : List Nat) (bv : Bitvector),
    (js.foldl Bitvector.set bv).bytes.length = bv.bytes.length
  | [], _ => rfl
  | j :: js, bv => by
      rw [List.foldl_cons, bytes_length_foldl_set js (bv.set j), bytes_length_set]

theorem mem_foldl_set : ∀ (js : List Nat) (bv : Bitvector),
    (∀ k ∈ js, k / 64 < bv.bytes.length) → ∀ i,
      (js.foldl Bitvector.set bv).mem i = (bv.mem i || decide (i ∈ js))
  | [], _, _, i => by simp
  | j :: js, bv, h, i => by
      rw [List.foldl_cons,
        mem_foldl_set js (bv.set j)
          (fun k hk => by rw [bytes_length_set]; exact h k (List.mem_cons_of_mem j hk)) i,
        mem_set_of_lt bv j i (h j (List.mem_cons_self j js))]
      by_cases h1 : i = j
      · subst h1
        simp
      · simp [h1, List.mem_cons]

theorem count_set (bv : Bitvector) (j : Nat) (hj : j / 64 < bv.bytes.length)
    (hinv : bv.count = (List.range (64 * bv.bytes.length)).countP bv.mem) :
    (bv.set j).count
      = (List.range (64 * (bv.set j).bytes.length)).countP (bv.set j).mem := by
  by_cases hb : bv.mem j = true
  · have hset : bv.set j = bv := by
      unfold Bitvector.set
      unfold Bitvector.mem at hb
      rw [if_pos hj, if_pos hb]
    rw [hset]
    exact hinv
  · have hcount : (bv.set j).count = bv.count + 1 := by
      unfold Bitvector.set
      unfold Bitvector.mem at hb
      rw [if_pos hj, if_neg hb]
    have hlen := bytes_length_set bv j
    have hcp : (List.range (64 * bv.bytes.length)).countP (bv.set j).mem
        = (List.range (64 * bv.bytes.length)).countP (fun i => bv.mem i || decide (i = j)) :=
      List.countP_congr (fun a _ => by rw [mem_set_of_lt bv j a hj])
    rw [hcount, hlen, hcp, hinv,
      countP_cond_or_eq bv.mem j _ (List.nodup_range _)
        (List.mem_range.mpr (by omega)) (by simpa using hb)]

theorem count_foldl_set : ∀ (js : List Nat) (bv : Bitvector),
    (∀ k ∈ js, k / 64 < bv.bytes.length) →
    bv.count = (List.range (64 * bv.bytes.length)).countP bv.mem →
    (js.foldl Bitvector.set bv).count
      = (List.range (64 * (js.foldl Bitvector.set bv).bytes.length)).countP
          (js.foldl Bitvector.set bv).mem
  | [], _, _, hinv => hinv
  | j :: js, bv, h, hinv => by
      rw [List.foldl_cons]
      apply count_foldl_set js (bv.set j)
      · intro k hk
        rw [bytes_length_set]
        exact h k (List.mem_cons_of_mem j hk)
      · exact count_set bv j (h j (List.mem_cons_self j js)) hinv

theorem mem_and (a b : Bitvector) (i : Nat) :
    (a.and b).mem i = (a.mem i && b.mem i) := by
  unfold Bitvector.and Bitvector.mem
  simp only [getD_zipWith_land, Nat.testBit_land]

theorem bytes_length_and (a b : Bitvector) :
    (a.and b).bytes.length = min a.bytes.length b.bytes.length := by
  simp [Bitvector.and, List.length_zipWith]

theorem sum_popCount_eq_countP : ∀ (bytes : List Nat),
    (bytes.map popCount64).sum
      = (List.range (64 * bytes.length)).countP
          (fun i => (bytes.getD (i / 64) 0).testBit (i % 64))
  | [] => by simp
  | w :: bytes => by
      have hlen : 64 * (w :: bytes).length = 64 + 64 * bytes.length := by
        simp [List.length_cons]
        ring
      rw [hlen, List.range_add, List.countP_append]
      have h1 : (List.range 64).countP (fun i => ((w :: bytes).getD (i / 64) 0).testBit (i % 64))
          = (List.range 64).countP (fun b => w.testBit b) := by
        apply List.countP_congr
        intro a ha
        have ha64 : a < 64 := List.mem_range.mp ha
        have h64 : a / 64 = 0 := by omega
        have hm : a % 64 = a := by omega
        rw [h64, hm]
        simp
      have h2 : ((List.range (64 * bytes.length)).map (64 + ·)).countP
            (fun i => ((w :: bytes).getD (i / 64) 0).testBit (i % 64))
          = (List.range (64 * bytes.length)).countP
            (fun i => (bytes.getD (i / 64) 0).testBit (i % 64)) := by
        rw [List.countP_map]
        apply List.countP_congr
        intro a _
        have hdiv : (64 + a) / 64 = a / 64 + 1 := by omega
        have hmod : (64 + a) % 64 = a % 64 := by omega
        simp only [Function.comp]
        rw [hdiv, hmod, List.getD_cons_succ]
      rw [h1, h2, List.map_cons, List.sum_cons, sum_popCount_eq_countP bytes]
      rfl

theorem count_and (a b : Bitvector) :
    (a.and b).count = (List.range (64 * (a.and b).bytes.length)).countP (a.and b).mem := by
  show ((List.zipWith (fun x y => x &&& y) a.bytes b.bytes).map popCount64).sum = _
  exact sum_popCount_eq_countP _

theorem mem_of_ge (bv : Bitvector) (i : Nat) (h : 64 * bv.bytes.length ≤ i) :
    bv.mem i = false := by
  unfold Bitvector.mem
  rw [List.getD_eq_getElem?_getD, List.getElem?_eq_none (by omega)]
  simp

theorem count_and_eq_zero_iff (a b : Bitvector) :
    (a.and b).count = 0 ↔ ∀ i, (a.mem i && b.mem i) = false := by
  rw [count_and, List.countP_eq_zero]
  constructor
  · intro h i
    rw [← mem_and]
    by_cases hi : i < 64 * (a.and b).bytes.length
    · simpa using h i (List.mem_range.mpr hi)
    · exact mem_of_ge _ i (by omega)
  · intro h i _
    rw [mem_and]
    simp [h i]

/-! ## Feedback codec lemmas -/

theorem getHintLoop_eq (answer : Word) :
    ∀ (rest : Word) (i : Nat) (arr : Nat → Nat),
      i + rest.length ≤ 5 → i + rest.length ≤ answer.length →
      getHintLoop answer rest i arr = some (fun j =>
        if i ≤ j ∧ j < i + rest.length then
          (if answer.getD j 0 = rest.getD (j - i) 0 then 2
           else if rest.getD (j - i) 0 ∈ answer then 1 else arr j)
        else arr j)
  | [], i, arr, _, _ => by
      unfold getHintLoop
      congr 1
      funext j
      have h : ¬ (i ≤ j ∧ j < i + ([] : Word).length) := by
        simp only [List.length_nil]
        omega
      rw [if_neg h]
  | ch :: rest, i, arr, h5, ha => by
      unfold getHintLoop
      have hlen : (ch :: rest).length = rest.length + 1 := List.length_cons ch rest
      have hia : i < answer.length := by rw [hlen] at ha; omega
      have hi5 : i < 5 := by rw [hlen] at h5; omega
      rw [if_pos hia]
      have harr2 : ∀ v (a2 : Nat → Nat), a2 = (fun j => if j = i then v else arr j) →
          getHintLoop answer rest (i + 1) a2 = some (fun j =>
            if i + 1 ≤ j ∧ j < i + 1 + rest.length then
              (if answer.getD j 0 = rest.getD (j - (i + 1)) 0 then 2
               else if rest.getD (j - (i + 1)) 0 ∈ answer then 1 else a2 j)
            else a2 j) := by
        intro v a2 _
        exact getHintLoop_eq answer rest (i + 1) a2 (by rw [hlen] at h5; omega)
          (by rw [hlen] at ha; omega)
      by_cases hceq : answer.getD i 0 = ch
      · rw [if_pos hceq]
        unfold writeHint
        rw [if_pos hi5]
        rw [Option.some_bind, harr2 2 _ rfl]
        congr 1
        funext j
        rcases Nat.lt_trichotomy j i with hj | hj | hj
        · have r1 : ¬ (i + 1 ≤ j ∧ j < i + 1 + rest.length) := by omega
          have r2 : ¬ (i ≤ j ∧ j < i + (ch :: rest).length) := by omega
          have r3 : ¬ (j = i) := by omega
          rw [if_neg r1, if_neg r2, if_neg r3]
        · subst hj
          have r1 : ¬ (j + 1 ≤ j ∧ j < j + 1 + rest.length) := by omega
          have r2 : j ≤ j ∧ j < j + (ch :: rest).length := by rw [hlen]; omega
          rw [if_neg r1, if_pos r2, if_pos rfl, Nat.sub_self, List.getD_cons_zero,
            if_pos hceq]
        · by_cases hr : j < i + 1 + rest.length
          · have r1 : i + 1 ≤ j ∧ j < i + 1 + rest.length := by omega
            have r2 : i ≤ j ∧ j < i + (ch :: rest).length := by rw [hlen]; omega
            have r3 : ¬ (j = i) := by omega
            have r4 : j - i = (j - (i + 1)) + 1 := by omega
            rw [if_pos r1, if_pos r2, r4, List.getD_cons_succ, if_neg r3]
          · have r1 : ¬ (i + 1 ≤ j ∧ j < i + 1 + rest.length) := by omega
            have r2 : ¬ (i ≤ j ∧ j < i + (ch :: rest).length) := by rw [hlen]; omega
            have r3 : ¬ (j = i) := by omega
            rw [if_neg r1, if_neg r2, if_neg r3]
      · rw [if_neg hceq]
        by_cases hmem : ch ∈ answer
        · rw [if_pos hmem]
          unfold writeHint
          rw [if_pos hi5]
          rw [Option.some_bind, harr2 1 _ rfl]
          congr 1
          funext j
          rcases Nat.lt_trichotomy j i with hj | hj | hj
          · have r1 : ¬ (i + 1 ≤ j ∧ j < i + 1 + rest.length) := by omega
            have r2 : ¬ (i ≤ j ∧ j < i + (ch :: rest).length) := by omega
            have r3 : ¬ (j = i) := by omega
            rw [if_neg r1, if_neg r2, if_neg r3]
          · subst hj
            have r1 : ¬ (j + 1 ≤ j ∧ j < j + 1 + rest.length) := by omega
            have r2 : j ≤ j ∧ j < j + (ch :: rest).length := by rw [hlen]; omega
            rw [if_neg r1, if_pos r2, if_pos rfl, Nat.sub_self, List.getD_cons_zero,
              if_neg hceq, if_pos hmem]
          · by_cases hr : j < i + 1 + rest.length
            · have r1 : i + 1 ≤ j ∧ j < i + 1 + rest.length := by omega
              have r2 : i ≤ j ∧ j < i + (ch :: rest).length := by rw [hlen]; omega
              have r3 : ¬ (j = i) := by omega
              have r4 : j - i = (j - (i + 1)) + 1 := by omega
              rw [if_pos r1, if_pos r2, r4, List.getD_cons_succ, if_neg r3]
            · have r1 : ¬ (i + 1 ≤ j ∧ j < i + 1 + rest.length) := by omega
              have r2 : ¬ (i ≤ j ∧ j < i + (ch :: rest).length) := by rw [hlen]; omega
              have r3 : ¬ (j = i) := by omega
              rw [if_neg r1, if_neg r2, if_neg r3]
        · rw [if_neg hmem]
          rw [getHintLoop_eq answer rest (i + 1) arr (by rw [hlen] at h5; omega)
            (by rw [hlen] at ha; omega)]
          congr 1
          funext j
          rcases Nat.lt_trichotomy j i with hj | hj | hj
          · have r1 : ¬ (i + 1 ≤ j ∧ j < i + 1 + rest.length) := by omega
            have r2 : ¬ (i ≤ j ∧ j < i + (ch :: rest).length) := by omega
            rw [if_neg r1, if_neg r2]
          · subst hj
            have r1 : ¬ (j + 1 ≤ j ∧ j < j + 1 + rest.length) := by omega
            have r2 : j ≤ j ∧ j < j + (ch :: rest).length := by rw [hlen]; omega
            rw [if_neg r1, if_pos r2, Nat.sub_self, List.getD_cons_zero,
              if_neg hceq, if_neg hmem]
          · by_cases hr : j < i + 1 + rest.length
            · have r1 : i + 1 ≤ j ∧ j < i + 1 + rest.length := by omega
              have r2 : i ≤ j ∧ j < i + (ch :: rest).length := by rw [hlen]; omega
              have r4 : j - i = (j - (i + 1)) + 1 := by omega
              rw [if_pos r1, if_pos r2, r4, List.getD_cons_succ]
            · have r1 : ¬ (i + 1 ≤ j ∧ j < i + 1 + rest.length) := by omega
              have r2 : ¬ (i ≤ j ∧ j < i + (ch :: rest).length) := by rw [hlen]; omega
              rw [if_neg r1, if_neg r2]

theorem getHintLoop_none (answer : Word) :
    ∀ (rest : Word) (i : Nat) (arr : Nat → Nat),
      answer.length < i + rest.length → i ≤ answer.length →
      getHintLoop answer rest i arr = none
  | [], i, arr, h1, h2 => by
      simp only [List.length_nil] at h1
      omega
  | ch :: rest, i, arr, h1, h2 => by
      unfold getHintLoop
      have hlen : (ch :: rest).length = rest.length + 1 := List.length_cons ch rest
      by_cases hia : i < answer.length
      · rw [if_pos hia]
        have hrec : ∀ a2 : Nat → Nat, getHintLoop answer rest (i + 1) a2 = none := fun a2 =>
          getHintLoop_none answer rest (i + 1) a2 (by rw [hlen] at h1; omega) (by omega)
        by_cases hceq : answer.getD i 0 = ch
        · rw [if_pos hceq]
          unfold writeHint
          by_cases hi5 : i < 5
          · rw [if_pos hi5, Option.some_bind, hrec]
          · rw [if_neg hi5]
            rfl
        · rw [if_neg hceq]
          by_cases hmem : ch ∈ answer
          · rw [if_pos hmem]
            unfold writeHint
            by_cases hi5 : i < 5
            · rw [if_pos hi5, Option.some_bind, hrec]
            · rw [if_neg hi5]
              rfl
          · rw [if_neg hmem]
            exact hrec arr
      · rw [if_neg hia]

theorem getHintCore_eq_charHints (guess answer : Word) (hg : guess.length = 5)
    (ha : 5 ≤ answer.length) :
    getHintCore guess answer = some (hintFold (charHintsOf guess answer)) := by
  unfold getHintCore
  rw [getHintLoop_eq answer guess 0 (fun _ => 0) (by omega) (by omega)]
  simp only [Option.map_some']
  congr 1
  unfold charHintsOf
  rw [show List.range 5 = [0, 1, 2, 3, 4] from rfl]
  simp only [List.map_cons, List.map_nil, Nat.sub_zero, Nat.zero_add, hg]
  norm_num

theorem getHintCore_isSome (guess answer : Word) (hg : guess.length ≤ 5)
    (ha : guess.length ≤ answer.length) : (getHintCore guess answer).isSome = true := by
  unfold getHintCore
  rw [getHintLoop_eq answer guess 0 (fun _ => 0) (by omega) (by omega)]
  rfl

theorem getHintCore_none_of_long (guess answer : Word) (h : answer.length < guess.length) :
    getHintCore guess answer = none := by
  unfold getHintCore
  rw [getHintLoop_none answer guess 0 (fun _ => 0) (by omega) (by omega)]
  rfl

theorem hintFold_closed (d0 d1 d2 d3 d4 : Nat)
    (h0 : d0 ≤ 2) (h1 : d1 ≤ 2) (h2 : d2 ≤ 2) (h3 : d3 ≤ 2) (h4 : d4 ≤ 2) :
    hintFold [d0, d1, d2, d3, d4] = d0 * 81 + d1 * 27 + d2 * 9 + d3 * 3 + d4 ∧
    hintFold [d0, d1, d2, d3, d4] < 243 := by
  unfold hintFold
  simp only [List.foldl_cons, List.foldl_nil]
  have e0 : (0 * 3 + d0) % 256 = d0 := by omega
  rw [e0]
  have e1 : (d0 * 3 + d1) % 256 = d0 * 3 + d1 := by omega
  rw [e1]
  have e2 : ((d0 * 3 + d1) * 3 + d2) % 256 = (d0 * 3 + d1) * 3 + d2 := by omega
  rw [e2]
  have e3 : (((d0 * 3 + d1) * 3 + d2) * 3 + d3) % 256
      = ((d0 * 3 + d1) * 3 + d2) * 3 + d3 := by omega
  rw [e3]
  have e4 : ((((d0 * 3 + d1) * 3 + d2) * 3 + d3) * 3 + d4) % 256
      = (((d0 * 3 + d1) * 3 + d2) * 3 + d3) * 3 + d4 := by omega
  rw [e4]
  omega

theorem decodeDigits_closed (v : Nat) :
    decodeDigits v = [v / 3 / 3 / 3 / 3 % 3, v / 3 / 3 / 3 % 3, v / 3 / 3 % 3, v / 3 % 3,
      v % 3] := rfl

theorem decodeDigits_hintFold (d0 d1 d2 d3 d4 : Nat)
    (h0 : d0 ≤ 2) (h1 : d1 ≤ 2) (h2 : d2 ≤ 2) (h3 : d3 ≤ 2) (h4 : d4 ≤ 2) :
    decodeDigits (d0 * 81 + d1 * 27 + d2 * 9 + d3 * 3 + d4) = [d0, d1, d2, d3, d4] := by
  rw [decodeDigits_closed]
  simp only [List.cons.injEq, and_true]
  omega

theorem charHintsOf_le_two (guess answer : Word) :
    ∀ d ∈ charHintsOf guess answer, d ≤ 2 := by
  intro d hd
  unfold charHintsOf at hd
  obtain ⟨i, _, rfl⟩ := List.mem_map.mp hd
  split_ifs <;> omega

theorem getHintT_eq (guess answer : Word) (hg : guess.length = 5)
    (ha : 5 ≤ answer.length) :
    getHintT guess answer = hintFold (charHintsOf guess answer) := by
  unfold getHintT
  rw [getHintCore_eq_charHints guess answer hg ha]
  rfl

/-! ## Conditional-set fold lemmas -/

theorem foldl_setIf_eq_filter (p : Nat → Prop) [DecidablePred p] :
    ∀ (l : List Nat) (bv : Bitvector),
      l.foldl (fun bv k => if p k then bv.set k else bv) bv
        = (l.filter (fun k => decide (p k))).foldl Bitvector.set bv
  | [], _ => rfl
  | k :: l, bv => by
      by_cases hk : p k
      · rw [List.foldl_cons, if_pos hk, List.filter_cons_of_pos (by simpa using hk),
          List.foldl_cons]
        exact foldl_setIf_eq_filter p l _
      · rw [List.foldl_cons, if_neg hk, List.filter_cons_of_neg (by simpa using hk)]
        exact foldl_setIf_eq_filter p l bv

theorem mem_buildIf (p : Nat → Prop) [DecidablePred p] (n i : Nat) :
    ((List.range n).foldl (fun bv k => if p k then bv.set k else bv) (newBitvector n)).mem i
      = (decide (i < n) && decide (p i)) := by
  rw [foldl_setIf_eq_filter]
  rw [mem_foldl_set _ _ (fun k hk => by
    have hkn : k < n := List.mem_range.mp (List.mem_of_mem_filter hk)
    rw [bytes_length_newBitvector]
    omega) i]
  rw [mem_newBitvector]
  simp [List.mem_filter, List.mem_range]

theorem bytes_length_buildIf (p : Nat → Prop) [DecidablePred p] (n : Nat) :
    ((List.range n).foldl (fun bv k => if p k then bv.set k else bv)
      (newBitvector n)).bytes.length = (n + 63) / 64 := by
  rw [foldl_setIf_eq_filter, bytes_length_foldl_set, bytes_length_newBitvector]

theorem mem_allSet (n i : Nat) :
    ((List.range n).foldl (fun bv k => bv.set k) (newBitvector n)).mem i
      = decide (i < n) := by
  have heq : (List.range n).foldl (fun bv k => bv.set k) (newBitvector n)
      = (List.range n).foldl Bitvector.set (newBitvector n) := rfl
  rw [heq, mem_foldl_set _ _ (fun k hk => by
    have hkn : k < n := List.mem_range.mp hk
    rw [bytes_length_newBitvector]
    omega) i]
  rw [mem_newBitvector]
  simp [List.mem_range]

theorem bytes_length_allSet (n : Nat) :
    ((List.range n).foldl (fun bv k => bv.set k) (newBitvector n)).bytes.length
      = (n + 63) / 64 := by
  have heq : (List.range n).foldl (fun bv k => bv.set k) (newBitvector n)
      = (List.range n).foldl Bitvector.set (newBitvector n) := rfl
  rw [heq, bytes_length_foldl_set, bytes_length_newBitvector]

theorem mem_hintBucket (guess : Word) (answers : List Word) (h i : Nat) :
    (hintBucket guess answers h).mem i
      = (decide (i < answers.length) &&
          decide (getHintT guess (answers.getD i []) = h)) :=
  mem_buildIf (fun k => getHintT guess (answers.getD k []) = h) answers.length i

theorem mem_buildConstraintBv (words : List Word) (c : Nat) (info : LetterInfo) (i : Nat) :
    (buildConstraintBv words c info).mem i
      = (decide (i < words.length) &&
          decide (TestLetterConstraint (words.getD i []) c info = true)) :=
  mem_buildIf (fun k => TestLetterConstraint (words.getD k []) c info = true) words.length i

/-! ## Scoring-loop lemmas -/

theorem candLoop_eq : ∀ (rest : List Bitvector) (bv : Bitvector),
    candLoop bv rest =
      (if (List.range rest.length).any
          (fun k => decide (((rest.take k).foldl Bitvector.and bv).count ≤ 2))
       then 1 else (rest.foldl Bitvector.and bv).count)
  | [], bv => by simp [candLoop]
  | g :: gs, bv => by
      unfold candLoop
      rw [List.length_cons, List.range_succ_eq_map]
      by_cases hc : bv.count ≤ 2
      · rw [if_pos hc]
        have hany : (0 :: List.map Nat.succ (List.range gs.length)).any
            (fun k => decide ((((g :: gs).take k).foldl Bitvector.and bv).count ≤ 2))
            = true := by
          simp only [List.any_cons, List.take_zero, List.foldl_nil, Bool.or_eq_true,
            decide_eq_true_eq]
          exact Or.inl hc
        rw [if_pos hany]
      · rw [if_neg hc, candLoop_eq gs (bv.and g)]
        have h0 : decide (bv.count ≤ 2) = false := by simp [hc]
        have hfun : ((fun k => decide ((((g :: gs).take k).foldl Bitvector.and bv).count ≤ 2))
              ∘ Nat.succ)
            = (fun k => decide (((gs.take k).foldl Bitvector.and (bv.and g)).count ≤ 2)) := by
          funext k
          simp only [Function.comp, List.take_succ_cons, List.foldl_cons]
        simp only [List.any_cons, List.take_zero, List.foldl_nil, h0, Bool.false_or,
          List.any_map, hfun, List.foldl_cons]

/-! ## Bitvector algebra lemmas -/

theorem zipWith_land_comm (a b : List Nat) :
    List.zipWith (fun x y => x &&& y) a b = List.zipWith (fun x y => x &&& y) b a :=
  List.zipWith_comm_of_comm _ Nat.and_comm a b

theorem zipWith_land_assoc : ∀ (a b c : List Nat),
    List.zipWith (fun x y => x &&& y) (List.zipWith (fun x y => x &&& y) a b) c
      = List.zipWith (fun x y => x &&& y) a (List.zipWith (fun x y => x &&& y) b c)
  | [], _, _ => rfl
  | _ :: _, [], _ => rfl
  | _ :: _, _ :: _, [] => rfl
  | a :: as, b :: bs, c :: cs => by
      simp only [List.zipWith_cons_cons, Nat.and_assoc, zipWith_land_assoc as bs cs]

theorem zipWith_land_self : ∀ (a : List Nat),
    List.zipWith (fun x y => x &&& y) a a = a
  | [] => rfl
  | x :: a => by simp only [List.zipWith_cons_cons, Nat.and_self, zipWith_land_self a]

/-! ## Search-engine lemmas -/

theorem getD_map_lt {α β : Type} (f : α → β) (l : List α) (i : Nat)
    (hi : i < l.length) (d : β) (d0 : α) : (l.map f).getD i d = f (l.getD i d0) := by
  rw [List.getD_eq_getElem?_getD, List.getElem?_map, List.getD_eq_getElem?_getD,
    List.getElem?_eq_getElem hi]
  simp

theorem letterIdx_lower (c : Nat) (h1 : 97 ≤ c) (h2 : c ≤ 122) :
    letterIdx c = c - 97 := by
  unfold letterIdx
  omega

theorem letterMask_eq_foldl (g : Word) (hlen : g.length = 5) :
    letterMask g = (g.map letterIdx).foldl Bitvector.set (newBitvector 26) := by
  unfold letterMask
  have h1 : g.map letterIdx = ((List.range 5).map (fun i => g.getD i 0)).map letterIdx := by
    rw [← hlen, map_getD_range (0 : Nat) g]
  rw [h1, List.foldl_map, List.foldl_map]

theorem mem_letterMask (g : Word) (hlen : g.length = 5)
    (hlc : ∀ c ∈ g, 97 ≤ c ∧ c ≤ 122) (j : Nat) :
    (letterMask g).mem j = decide (j ∈ g.map letterIdx) := by
  rw [letterMask_eq_foldl g hlen,
    mem_foldl_set _ _ (fun k hk => by
      obtain ⟨c, hc, rfl⟩ := List.mem_map.mp hk
      rw [letterIdx_lower c (hlc c hc).1 (hlc c hc).2, bytes_length_newBitvector]
      have := (hlc c hc).2
      omega) j,
    mem_newBitvector]
  simp

theorem countP_mem_eq_dedup_length (js : List Nat) (m : Nat) (hjs : ∀ k ∈ js, k < m) :
    (List.range m).countP (fun i => decide (i ∈ js)) = js.dedup.length := by
  rw [List.countP_eq_length_filter]
  have hperm : List.Perm ((List.range m).filter (fun i => decide (i ∈ js))) js.dedup := by
    apply (List.perm_ext_iff_of_nodup
      (List.Nodup.filter _ (List.nodup_range m)) (List.nodup_dedup js)).mpr
    intro a
    simp only [List.mem_filter, List.mem_range, List.mem_dedup, decide_eq_true_eq]
    exact ⟨fun h => h.2, fun h => ⟨hjs a h, h⟩⟩
  exact hperm.length_eq

theorem dedup_length_map_of_inj (f : Nat → Nat) : ∀ (l : List Nat),
    (∀ a ∈ l, ∀ b ∈ l, f a = f b → a = b) →
    (l.map f).dedup.length = l.dedup.length
  | [], _ => rfl
  | x :: l, hf => by
      have hrec := dedup_length_map_of_inj f l (fun a ha b hb =>
        hf a (List.mem_cons_of_mem x ha) b (List.mem_cons_of_mem x hb))
      rw [List.map_cons]
      by_cases hx : x ∈ l
      · rw [List.dedup_cons_of_mem (List.mem_map_of_mem f hx),
          List.dedup_cons_of_mem hx]
        exact hrec
      · have hfx : ¬ f x ∈ l.map f := by
          intro hmem
          obtain ⟨b, hb, hfb⟩ := List.mem_map.mp hmem
          have hbx : b = x := hf b (List.mem_cons_of_mem x hb) x (List.mem_cons_self x l) hfb
          exact hx (hbx ▸ hb)
        rw [List.dedup_cons_of_not_mem hfx, List.dedup_cons_of_not_mem hx,
          List.length_cons, List.length_cons, hrec]

theorem count_newBitvector_inv (n : Nat) :
    (newBitvector n).count
      = (List.range (64 * (newBitvector n).bytes.length)).countP (newBitvector n).mem := by
  have h0 : (List.range (64 * (newBitvector n).bytes.length)).countP (newBitvector n).mem
      = 0 := by
    rw [List.countP_eq_zero]
    intro a _
    simp [mem_newBitvector]
  rw [h0]
  rfl

theorem count_letterMask (g : Word) (hlen : g.length = 5)
    (hlc : ∀ c ∈ g, 97 ≤ c ∧ c ≤ 122) :
    (letterMask g).count = g.dedup.length := by
  have hin : ∀ k ∈ g.map letterIdx, k / 64 < (newBitvector 26).bytes.length := by
    intro k hk
    obtain ⟨c, hc, rfl⟩ := List.mem_map.mp hk
    rw [letterIdx_lower c (hlc c hc).1 (hlc c hc).2, bytes_length_newBitvector]
    have := (hlc c hc).2
    omega
  rw [letterMask_eq_foldl g hlen,
    count_foldl_set _ _ hin (count_newBitvector_inv 26)]
  rw [bytes_length_foldl_set, bytes_length_newBitvector]
  have hcp : (List.range (64 * ((26 + 63) / 64))).countP
        ((g.map letterIdx).foldl Bitvector.set (newBitvector 26)).mem
      = (List.range (64 * ((26 + 63) / 64))).countP
        (fun i => decide (i ∈ g.map letterIdx)) := by
    apply List.countP_congr
    intro a _
    rw [mem_foldl_set _ _ hin a, mem_newBitvector]
    simp
  rw [hcp, countP_mem_eq_dedup_length _ _ (fun k hk => by
    obtain ⟨c, hc, rfl⟩ := List.mem_map.mp hk
    rw [letterIdx_lower c (hlc c hc).1 (hlc c hc).2]
    have := (hlc c hc).2
    omega)]
  exact dedup_length_map_of_inj letterIdx g (fun a ha b hb hab => by
    rw [letterIdx_lower a (hlc a ha).1 (hlc a ha).2,
      letterIdx_lower b (hlc b hb).1 (hlc b hb).2] at hab
    have h1 := (hlc a ha).1
    have h2 := (hlc b hb).1
    omega)

theorem getD_mem_of_lt {α : Type} (l : List α) (i : Nat) (d : α) (hi : i < l.length) :
    l.getD i d ∈ l := by
  rw [List.getD_eq_getElem l d hi]
  exact List.getElem_mem hi

theorem mem_pairsEvaluated (guesses : List Word) (i j : Nat) :
    (i, j) ∈ pairsEvaluated guesses ↔
      i < j ∧ j < (filteredGuesses guesses).length ∧
      ((((filteredGuesses guesses).map letterMask).getD i (newBitvector 26)).and
        (((filteredGuesses guesses).map letterMask).getD j (newBitvector 26))).count
        = 0 := by
  unfold pairsEvaluated
  simp only [List.mem_flatMap, List.mem_filterMap, List.mem_map, List.mem_range]
  constructor
  · rintro ⟨i2, hi2, a, ⟨k, hk, rfl⟩, hopt⟩
    split at hopt
    · next hcond =>
        simp only [Option.some.injEq, Prod.mk.injEq] at hopt
        obtain ⟨rfl, rfl⟩ := hopt
        exact ⟨by omega, by omega, hcond⟩
    · exact absurd hopt (by simp)
  · rintro ⟨hij, hjn, hcnt⟩
    refine ⟨i, by omega, i + 1 + (j - i - 1), ⟨j - i - 1, by omega, rfl⟩, ?_⟩
    have hj2 : i + 1 + (j - i - 1) = j := by omega
    rw [hj2, if_pos hcnt]

theorem maskAnd_count_zero_iff (g1 g2 : Word)
    (h1 : g1.length = 5) (h2 : g2.length = 5)
    (hl1 : ∀ c ∈ g1, 97 ≤ c ∧ c ≤ 122) (hl2 : ∀ c ∈ g2, 97 ≤ c ∧ c ≤ 122) :
    ((letterMask g1).and (letterMask g2)).count = 0 ↔ ¬ ∃ c, c ∈ g1 ∧ c ∈ g2 := by
  rw [count_and_eq_zero_iff]
  constructor
  · rintro h ⟨c, hc1, hc2⟩
    have hcontra := h (letterIdx c)
    rw [mem_letterMask g1 h1 hl1, mem_letterMask g2 h2 hl2] at hcontra
    simp [List.mem_map_of_mem letterIdx hc1, List.mem_map_of_mem letterIdx hc2] at hcontra
  · intro h j
    rw [mem_letterMask g1 h1 hl1, mem_letterMask g2 h2 hl2]
    by_cases hj1 : j ∈ g1.map letterIdx
    · obtain ⟨c1, hc1, rfl⟩ := List.mem_map.mp hj1
      by_cases hj2 : letterIdx c1 ∈ g2.map letterIdx
      · obtain ⟨c2, hc2, he⟩ := List.mem_map.mp hj2
        have hcc : c2 = c1 := by
          rw [letterIdx_lower c1 (hl1 c1 hc1).1 (hl1 c1 hc1).2,
            letterIdx_lower c2 (hl2 c2 hc2).1 (hl2 c2 hc2).2] at he
          have hb1 := (hl1 c1 hc1).1
          have hb2 := (hl2 c2 hc2).1
          omega
        exact absurd ⟨c1, hc1, hcc ▸ hc2⟩ h
      · simp [hj1, hj2]
    · simp [hj1]

/-! ## Constraint-engine lemmas -/

theorem insertSorted_perm (x : Nat) : ∀ (l : List Nat),
    List.Perm (insertSorted x l) (x :: l)
  | [] => List.Perm.refl _
  | y :: ys => by
      unfold insertSorted
      by_cases h : x ≤ y
      · rw [if_pos h]
      · rw [if_neg h]
        exact ((insertSorted_perm x ys).cons y).trans (List.Perm.swap x y ys)

theorem sortNat_perm : ∀ (l : List Nat), List.Perm (sortNat l) l
  | [] => List.Perm.refl _
  | x :: l => by
      unfold sortNat
      rw [List.foldr_cons]
      exact (insertSorted_perm x (l.foldr insertSorted [])).trans
        ((sortNat_perm l).cons x)

theorem all_eq_of_perm {l1 l2 : List Nat} (h : List.Perm l1 l2) (p : Nat → Bool) :
    l1.all p = l2.all p := by
  cases h1 : l1.all p <;> cases h2 : l2.all p
  · rfl
  · rw [List.all_eq_true] at h2
    have h1f : ∃ x ∈ l1, ¬ p x = true := by
      by_contra hcon
      push_neg at hcon
      rw [← List.all_eq_true] at hcon
      simp only [hcon] at h1
      cases h1
    obtain ⟨x, hx, hpx⟩ := h1f
    exact absurd (h2 x (h.mem_iff.mp hx)) hpx
  · rw [List.all_eq_true] at h1
    have h2f : ∃ x ∈ l2, ¬ p x = true := by
      by_contra hcon
      push_neg at hcon
      rw [← List.all_eq_true] at hcon
      simp only [hcon] at h2
      cases h2
    obtain ⟨x, hx, hpx⟩ := h2f
    exact absurd (h1 x (h.mem_iff.mpr hx)) hpx
  · rfl

theorem canonical_inj {a b : LetterInfo} (h : a.canonical = b.canonical) :
    List.Perm a.mustBe b.mustBe ∧ List.Perm a.cantBe b.cantBe ∧
    a.freq = b.freq ∧ a.exact = b.exact := by
  unfold LetterInfo.canonical at h
  simp only [Prod.mk.injEq] at h
  obtain ⟨h1, h2, h3, h4⟩ := h
  exact ⟨(sortNat_perm a.mustBe).symm.trans (h1 ▸ sortNat_perm b.mustBe),
    (sortNat_perm a.cantBe).symm.trans (h2 ▸ sortNat_perm b.cantBe), h3, h4⟩

theorem mem_gen_elim {x : LetterInfo} (hx : x ∈ GenerateAllLetterInfos) :
    x.isValid = true ∧ x.freq ≤ 3 := by
  unfold GenerateAllLetterInfos at hx
  simp only [List.mem_flatMap, List.mem_range] at hx
  obtain ⟨freq, hfreq, ex, _, mb, _, hx⟩ := hx
  split at hx
  · exact absurd hx (List.not_mem_nil x)
  · simp only [List.mem_filterMap, List.mem_range] at hx
    obtain ⟨cb, _, hopt⟩ := hx
    split at hopt
    · exact absurd hopt (by simp)
    · split at hopt
      · next hvalid =>
          simp only [Option.some.injEq] at hopt
          subst hopt
          refine ⟨hvalid, ?_⟩
          show freq ≤ 3
          omega
      · exact absurd hopt (by simp)

theorem TLC_eq_wscLetter (w : Word) (c : Nat) (i2 info : LetterInfo)
    (hcan : i2.canonical = info.canonical) (hval : i2.isValid = true) :
    TestLetterConstraint w c i2 = wscLetter w c info := by
  obtain ⟨hm, hcnt, hf, he⟩ := canonical_inj hcan
  unfold TestLetterConstraint wscLetter
  rw [all_eq_of_perm hm (fun p => decide (w.getD p 0 = c)),
    all_eq_of_perm hcnt (fun p => decide (¬ w.getD p 0 = c)), hf, he]
  congr 1
  congr 1
  by_cases h0 : info.freq = 0
  · rw [if_pos h0]
    have hex : info.exact = true := by
      unfold LetterInfo.isValid at hval
      rw [hf, if_pos h0] at hval
      rw [← he]
      exact (Bool.and_eq_true .. |>.mp hval).2
    rw [hex, if_pos rfl, h0]
  · rw [if_neg h0]

theorem bytes_length_buildConstraintBv (words : List Word) (c : Nat)
    (info : LetterInfo) :
    (buildConstraintBv words c info).bytes.length = (words.length + 63) / 64 :=
  bytes_length_buildIf _ _

theorem lookup_some_elim (words : List Word) (c : Nat) (info : LetterInfo)
    (bv : Bitvector) (hl : lookupConstraint words c info = some bv) :
    ∃ i2, bv = buildConstraintBv words c i2 ∧ i2.canonical = info.canonical ∧
      i2.isValid = true := by
  unfold lookupConstraint at hl
  cases hfind : GenerateAllLetterInfos.find? (fun x => x.canonical = info.canonical) with
  | none =>
      rw [hfind] at hl
      exact absurd hl (by simp)
  | some i2 =>
      rw [hfind] at hl
      simp only [Option.some.injEq] at hl
      refine ⟨i2, hl.symm, ?_, (mem_gen_elim (List.mem_of_find?_eq_some hfind)).1⟩
      have := List.find?_some hfind
      simpa using this

theorem mem_constraintFold (words : List Word) (i : Nat) :
    ∀ (infos : List (Nat × LetterInfo)) (acc : Bitvector),
      (∀ p ∈ infos, (lookupConstraint words p.1 p.2).isSome = true) →
      (constraintFold words infos acc).mem i
        = (acc.mem i && infos.all (fun p =>
            decide (i < words.length) && wscLetter (words.getD i []) p.1 p.2))
  | [], acc, _ => by simp [constraintFold]
  | p :: ps, acc, h => by
      have hp := h p (List.mem_cons_self p ps)
      obtain ⟨bv, hbv⟩ : ∃ bv, lookupConstraint words p.1 p.2 = some bv := by
        cases hl : lookupConstraint words p.1 p.2 with
        | none => rw [hl] at hp; simp at hp
        | some bv => exact ⟨bv, rfl⟩
      obtain ⟨i2, rfl, hcan, hval⟩ := lookup_some_elim words p.1 p.2 bv hbv
      unfold constraintFold
      rw [List.foldl_cons, hbv]
      have hrec := mem_constraintFold words i ps
        (acc.and (buildConstraintBv words p.1 i2))
        (fun q hq => h q (List.mem_cons_of_mem p hq))
      rw [show (ps.foldl (fun acc p =>
          match lookupConstraint words p.1 p.2 with
          | some bv => acc.and bv
          | none => acc) (acc.and (buildConstraintBv words p.1 i2)))
        = constraintFold words ps (acc.and (buildConstraintBv words p.1 i2)) from rfl]
      rw [hrec, mem_and, mem_buildConstraintBv, TLC_eq_wscLetter _ p.1 i2 p.2 hcan hval]
      rw [List.all_cons]
      cases acc.mem i <;> cases wscLetter (words.getD i []) p.1 p.2 <;>
        cases hlt : decide (i < words.length) <;> simp

theorem bytes_length_constraintFold (words : List Word) :
    ∀ (infos : List (Nat × LetterInfo)) (acc : Bitvector),
      acc.bytes.length = (words.length + 63) / 64 →
      (constraintFold words infos acc).bytes.length = (words.length + 63) / 64
  | [], _, h => h
  | p :: ps, acc, h => by
      unfold constraintFold
      rw [List.foldl_cons]
      cases hl : lookupConstraint words p.1 p.2 with
      | none =>
          show (constraintFold words ps acc).bytes.length = _
          exact bytes_length_constraintFold words ps acc h
      | some bv =>
          obtain ⟨i2, rfl, _, _⟩ := lookup_some_elim words p.1 p.2 bv hl
          show (constraintFold words ps
            (acc.and (buildConstraintBv words p.1 i2))).bytes.length = _
          apply bytes_length_constraintFold words ps
          rw [bytes_length_and, h, bytes_length_buildConstraintBv]
          simp

theorem mem_startBv (n i : Nat) : (startBv n).mem i = decide (i < n) :=
  mem_allSet n i

theorem bytes_length_startBv (n : Nat) : (startBv n).bytes.length = (n + 63) / 64 :=
  bytes_length_allSet n

/-! ## hint.New lemmas -/

theorem greensPassStep_proj (guess answer : Word) (h : HintRec) (i : Nat) :
    (greensPassStep guess answer h i).sequence = h.sequence.set i 2 ∧
    (greensPassStep guess answer h i).rank = h.rank ∧
    (greensPassStep guess answer h i).duplicates = h.duplicates ∧
    (greensPassStep guess answer h i).yellows = h.yellows ∧
    (greensPassStep guess answer h i).grays = h.grays := by
  unfold greensPassStep
  split <;> exact ⟨rfl, rfl, rfl, rfl, rfl⟩

theorem greensPass_fold_proj (guess answer : Word) : ∀ (l : List Nat) (h : HintRec),
    ((l.foldl (greensPassStep guess answer) h).sequence
        = l.foldl (fun s i => s.set i 2) h.sequence) ∧
    (l.foldl (greensPassStep guess answer) h).rank = h.rank ∧
    (l.foldl (greensPassStep guess answer) h).duplicates = h.duplicates ∧
    (l.foldl (greensPassStep guess answer) h).yellows = h.yellows ∧
    (l.foldl (greensPassStep guess answer) h).grays = h.grays
  | [], h => ⟨rfl, rfl, rfl, rfl, rfl⟩
  | i :: l, h => by
      have hstep := greensPassStep_proj guess answer h i
      have hrec := greensPass_fold_proj guess answer l (greensPassStep guess answer h i)
      refine ⟨?_, ?_, ?_, ?_, ?_⟩ <;>
        simp only [List.foldl_cons, hrec.1, hrec.2.1, hrec.2.2.1, hrec.2.2.2.1,
          hrec.2.2.2.2, hstep.1, hstep.2.1, hstep.2.2.1, hstep.2.2.2.1, hstep.2.2.2.2]

theorem greensPass_sequence (guess answer : Word) :
    (greensPass guess answer).sequence = [2, 2, 2, 2, 2] := by
  unfold greensPass
  rw [(greensPass_fold_proj guess answer (List.range 5) hintZero).1]
  rfl

theorem yellowsPass_skip (guess : Word) : ∀ (l : List Nat) (st : HintRec × List Nat),
    (∀ i ∈ l, st.1.sequence.getD i 0 = 2) →
    l.foldl (yellowsPassStep guess) st = st
  | [], _, _ => rfl
  | i :: l, st, h => by
      rw [List.foldl_cons]
      have hstep : yellowsPassStep guess st i = st := by
        unfold yellowsPassStep
        rw [if_pos (h i (List.mem_cons_self i l))]
      rw [hstep]
      exact yellowsPass_skip guess l st (fun j hj => h j (List.mem_cons_of_mem i hj))

theorem newHint_eq_greensPass (guess answer : Word) :
    NewHint guess answer = greensPass guess answer := by
  unfold NewHint
  rw [yellowsPass_skip guess (List.range 5) _ ?hcond]
  case hcond =>
    intro i hi
    have hi5 : i < 5 := List.mem_range.mp hi
    show (greensPass guess answer).sequence.getD i 0 = 2
    rw [greensPass_sequence]
    revert hi5
    revert i
    decide

/-! ## Claim theorems -/

/-- C1 (code bug): the spec requires that getHint never tags more positions of a
letter as Present or Correct than that letter's occurrence count in the answer,
and mandates guess "speed" vs answer "abide" giving tags [0,0,0,0,1] (code 1)
as a regression case. The code's getHint instead tags via
strings.ContainsRune, yielding tags [0,0,1,1,1] (code 13): the single letter e
of "abide" is tagged Present twice. -/
theorem getHint_speed_abide_bug :
    getHintCore speedW abideW = some 13 ∧
    charHintsOf speedW abideW = [0, 0, 1, 1, 1] ∧
    decodeDigits 13 ≠ [0, 0, 0, 0, 1] ∧
    abideW.count 101 = 1 ∧
    (List.range 5).countP
      (fun i => ((charHintsOf speedW abideW).getD i 0 != 0) &&
        (speedW.getD i 0 == 101)) = 2 := by
  decide

/-- C3: for a fixed guess, the feedback-code buckets built by
calculateHints/calculateBitvecs partition the answer index set: answer index i
is in bucket h exactly when h = getHint(guess, answers[i]), hence buckets are
pairwise disjoint and every index lies in the bucket of its own hint. -/
theorem hintBuckets_partition (guess : Word) (answers : List Word) (i : Nat)
    (hi : i < answers.length) :
    (∀ h : Nat, ((hintBucket guess answers h).mem i = true ↔
      h = getHintT guess (answers.getD i []))) ∧
    (∀ h h2 : Nat, h ≠ h2 →
      ¬ ((hintBucket guess answers h).mem i = true ∧
         (hintBucket guess answers h2).mem i = true)) ∧
    (hintBucket guess answers (getHintT guess (answers.getD i []))).mem i = true := by
  have hmem : ∀ h : Nat, ((hintBucket guess answers h).mem i = true ↔
      h = getHintT guess (answers.getD i [])) := by
    intro h
    rw [mem_hintBucket]
    simp [hi, eq_comm]
  refine ⟨hmem, ?_, (hmem _).mpr rfl⟩
  rintro h h2 hne ⟨m1, m2⟩
  exact hne (((hmem h).mp m1).trans ((hmem h2).mp m2).symm)

/-- Witness for C3 at a concrete one-word answer list. -/
theorem hintBuckets_partition_witness :
    0 < ([abcdeW] : List Word).length ∧
    (hintBucket abcdeW [abcdeW]
      (getHintT abcdeW (([abcdeW] : List Word).getD 0 []))).mem 0 = true :=
  ⟨by decide, (hintBuckets_partition abcdeW [abcdeW] 0 (by decide)).2.2⟩

/-- C6: on length-5 inputs the feedback code of getHint is the base-3 value of
the five per-position tags, most significant digit first, lies below 3^5 = 243,
and the digit-recovery loop of Hint.ColoredWord decodes it back to the tags. -/
theorem hint_code_base3_roundtrip (guess answer : Word)
    (hg : guess.length = 5) (ha : answer.length = 5) :
    ∃ code, getHintCore guess answer = some code ∧
      code = ((List.range 5).map
        (fun i => (charHintsOf guess answer).getD i 0 * 3 ^ (4 - i))).sum ∧
      code < 243 ∧ decodeDigits code = charHintsOf guess answer := by
  obtain ⟨d0, d1, d2, d3, d4, hds⟩ : ∃ a b c d e,
      charHintsOf guess answer = [a, b, c, d, e] := ⟨_, _, _, _, _, rfl⟩
  have hb : ∀ d ∈ charHintsOf guess answer, d ≤ 2 := charHintsOf_le_two guess answer
  rw [hds] at hb
  have h0 : d0 ≤ 2 := hb d0 (by simp)
  have h1 : d1 ≤ 2 := hb d1 (by simp)
  have h2 : d2 ≤ 2 := hb d2 (by simp)
  have h3 : d3 ≤ 2 := hb d3 (by simp)
  have h4 : d4 ≤ 2 := hb d4 (by simp)
  have hclosed := hintFold_closed d0 d1 d2 d3 d4 h0 h1 h2 h3 h4
  refine ⟨hintFold (charHintsOf guess answer),
    getHintCore_eq_charHints guess answer hg (by omega), ?_, ?_, ?_⟩
  · rw [hds, hclosed.1]
    rw [show List.range 5 = [0, 1, 2, 3, 4] from rfl]
    simp only [List.map_cons, List.map_nil, List.sum_cons, List.sum_nil]
    norm_num
    omega
  · rw [hds]
    exact hclosed.2
  · rw [hds, hclosed.1, decodeDigits_hintFold d0 d1 d2 d3 d4 h0 h1 h2 h3 h4]

/-- Witness for C6 at guess "abcde", answer "eeeee". -/
theorem hint_code_base3_roundtrip_witness :
    (abcdeW.length = 5 ∧ eeeeeW.length = 5) ∧
    ∃ code, getHintCore abcdeW eeeeeW = some code ∧
      code = ((List.range 5).map
        (fun i => (charHintsOf abcdeW eeeeeW).getD i 0 * 3 ^ (4 - i))).sum ∧
      code < 243 ∧ decodeDigits code = charHintsOf abcdeW eeeeeW :=
  ⟨⟨by decide, by decide⟩, hint_code_base3_roundtrip abcdeW eeeeeW (by decide) (by decide)⟩

/-- C7 counterexample: on the length-mismatched pair guess "ab", answer
"abcde", getHint returns the feedback code 216 instead of failing: there is no
LengthMismatch error anywhere in the code. -/
theorem getHint_no_lengthMismatch_counterexample :
    getHintCore [97, 98] [97, 98, 99, 100, 101] = some 216 := by decide

/-- C7 (amended): getHint performs no length validation and has no
LengthMismatch error. For any guess of length at most 5 that is not longer
than the answer (in particular for mismatched lengths differing from 5), it
returns a feedback code; when the guess is longer than the answer it panics
with an index-out-of-range (modelled as none), never a LengthMismatch
failure. -/
theorem getHint_no_length_validation (guess answer : Word) :
    (guess.length ≤ 5 → guess.length ≤ answer.length →
      (getHintCore guess answer).isSome = true) ∧
    (answer.length < guess.length → getHintCore guess answer = none) :=
  ⟨fun hl ha => getHintCore_isSome guess answer hl ha,
   fun h => getHintCore_none_of_long guess answer h⟩

/-- Witness for C7's amended statement at two concrete mismatched pairs. -/
theorem getHint_no_length_validation_witness :
    (getHintCore [97, 98] [97, 98, 99]).isSome = true ∧
    getHintCore [97, 98, 99] [97, 98] = none :=
  ⟨(getHint_no_length_validation [97, 98] [97, 98, 99]).1 (by decide) (by decide),
   (getHint_no_length_validation [97, 98, 99] [97, 98]).2 (by decide)⟩

/-- C4: in AvgNumCandidates and MaxNumCandidates the per-answer loop
contributes exactly 1 as soon as the running candidate count is at most 2
before some follow-up intersection (applying no further intersections), and
otherwise contributes the count of the fully intersected bitvector; the two
scoring functions are the sum (respectively the max seeded with 1) of these
per-answer contributions. -/
theorem candidates_short_circuit (lookup : Word → Word → Bitvector)
    (answers : List Word) (first : Word) (rest2 : List Word)
    (bv : Bitvector) (rest : List Bitvector) :
    candLoop bv rest =
      (if (List.range rest.length).any
          (fun k => decide (((rest.take k).foldl Bitvector.and bv).count ≤ 2))
       then 1 else (rest.foldl Bitvector.and bv).count) ∧
    AvgNumCandidatesNum lookup answers first rest2
      = (answers.map (fun a => candLoop (lookup first a)
          (rest2.map (fun g => lookup g a)))).sum ∧
    MaxNumCandidates lookup answers first rest2
      = (answers.map (fun a => candLoop (lookup first a)
          (rest2.map (fun g => lookup g a)))).foldl max 1 := by
  refine ⟨candLoop_eq rest bv, ?_, ?_⟩
  · unfold AvgNumCandidatesNum
    rw [foldl_plus_eq_sum]
    omega
  · unfold MaxNumCandidates
    rw [List.foldl_map]

/-- C9: Bitvector.And is commutative and associative as an equation on the
whole structure (Bytes and Count), a bitvector whose tracked Count matches the
popcount of its Bytes is a fixed point of And with itself, and And truncates
to the shorter of the two Bytes lists. -/
theorem bitvector_and_algebra (a b c bv : Bitvector) :
    a.and b = b.and a ∧
    (a.and b).and c = a.and (b.and c) ∧
    (bv.count = (bv.bytes.map popCount64).sum → bv.and bv = bv) ∧
    (a.and b).bytes.length = min a.bytes.length b.bytes.length := by
  refine ⟨?_, ?_, ?_, bytes_length_and a b⟩
  · unfold Bitvector.and
    rw [zipWith_land_comm]
  · unfold Bitvector.and
    simp only
    rw [zipWith_land_assoc]
  · intro hinv
    unfold Bitvector.and
    simp only [zipWith_land_self]
    cases bv with
    | mk bytes count =>
      simp only at hinv
      rw [hinv]

/-- Witness for C9's self-intersection clause at a concrete bitvector with a
consistent count. -/
theorem bitvector_and_algebra_witness :
    ((⟨[3], 2⟩ : Bitvector).count
      = ((⟨[3], 2⟩ : Bitvector).bytes.map popCount64).sum) ∧
    (⟨[3], 2⟩ : Bitvector).and ⟨[3], 2⟩ = ⟨[3], 2⟩ :=
  ⟨by decide,
   (bitvector_and_algebra ⟨[1], 1⟩ ⟨[1], 1⟩ ⟨[1], 1⟩ ⟨[3], 2⟩).2.2.1 (by decide)⟩

/-- C10: for every pair of 5-character strings, the Hint built by hint.New has
sequence [2,2,2,2,2] (every position tagged Correct, because the first loop
assigns sequence[i] = 2 outside the letters-match test), rank 0, empty yellows
and duplicates, all-false grays, and its sequence does not depend on the
answer. -/
theorem newHint_all_correct (guess answer : Word)
    (hg : guess.length = 5) (ha : answer.length = 5) :
    (NewHint guess answer).sequence = [2, 2, 2, 2, 2] ∧
    (NewHint guess answer).rank = 0 ∧
    (NewHint guess answer).yellows = [] ∧
    (NewHint guess answer).duplicates = [] ∧
    (NewHint guess answer).grays = List.replicate 26 false ∧
    ∀ answer2 : Word, answer2.length = 5 →
      (NewHint guess answer2).sequence = (NewHint guess answer).sequence := by
  have hfold := greensPass_fold_proj guess answer (List.range 5) hintZero
  refine ⟨?_, ?_, ?_, ?_, ?_, ?_⟩
  · rw [newHint_eq_greensPass, greensPass_sequence]
  · rw [newHint_eq_greensPass]
    exact hfold.2.1
  · rw [newHint_eq_greensPass]
    exact hfold.2.2.2.1
  · rw [newHint_eq_greensPass]
    exact hfold.2.2.1
  · rw [newHint_eq_greensPass]
    exact hfold.2.2.2.2
  · intro answer2 _
    rw [newHint_eq_greensPass, newHint_eq_greensPass, greensPass_sequence,
      greensPass_sequence]

/-- Witness for C10 at guess "speed", answer "abide". -/
theorem newHint_all_correct_witness :
    (speedW.length = 5 ∧ abideW.length = 5) ∧
    (NewHint speedW abideW).sequence = [2, 2, 2, 2, 2] :=
  ⟨⟨by decide, by decide⟩, (newHint_all_correct speedW abideW (by decide) (by decide)).1⟩

/-- C5: in findBestGuess, a guess enters the pairing search exactly when its
five letters are pairwise distinct (the 26-bit mask has count 5), and the
scoring function is invoked on an index pair (i, j) exactly when i < j and the
two guesses' letter-presence masks do not intersect; a pair sharing any letter
is skipped before scoring. -/
theorem findBestGuess_pruning (guesses : List Word)
    (hg : ∀ g ∈ guesses, g.length = 5 ∧ ∀ c ∈ g, 97 ≤ c ∧ c ≤ 122) :
    (∀ g, g ∈ filteredGuesses guesses ↔ g ∈ guesses ∧ g.dedup.length = 5) ∧
    ∀ i j, ((i, j) ∈ pairsEvaluated guesses ↔
      i < j ∧ j < (filteredGuesses guesses).length ∧
      ¬ ∃ c, c ∈ (filteredGuesses guesses).getD i [] ∧
             c ∈ (filteredGuesses guesses).getD j []) := by
  have hmemfil : ∀ g ∈ filteredGuesses guesses, g ∈ guesses :=
    fun g hgm => List.mem_of_mem_filter hgm
  constructor
  · intro g
    unfold filteredGuesses
    rw [List.mem_filter]
    constructor
    · rintro ⟨hmem, hcnt⟩
      refine ⟨hmem, ?_⟩
      rw [← count_letterMask g (hg g hmem).1 (hg g hmem).2]
      simpa using hcnt
    · rintro ⟨hmem, hded⟩
      refine ⟨hmem, ?_⟩
      rw [decide_eq_true_eq, count_letterMask g (hg g hmem).1 (hg g hmem).2]
      exact hded
  · intro i j
    rw [mem_pairsEvaluated]
    constructor
    · rintro ⟨hij, hjn, hcnt⟩
      have hin : i < (filteredGuesses guesses).length := by omega
      rw [getD_map_lt letterMask _ i hin _ [], getD_map_lt letterMask _ j hjn _ []] at hcnt
      have hgi := hg _ (hmemfil _ (getD_mem_of_lt _ i [] hin))
      have hgj := hg _ (hmemfil _ (getD_mem_of_lt _ j [] hjn))
      exact ⟨hij, hjn, (maskAnd_count_zero_iff _ _ hgi.1 hgj.1 hgi.2 hgj.2).mp hcnt⟩
    · rintro ⟨hij, hjn, hdisj⟩
      have hin : i < (filteredGuesses guesses).length := by omega
      refine ⟨hij, hjn, ?_⟩
      rw [getD_map_lt letterMask _ i hin _ [], getD_map_lt letterMask _ j hjn _ []]
      have hgi := hg _ (hmemfil _ (getD_mem_of_lt _ i [] hin))
      have hgj := hg _ (hmemfil _ (getD_mem_of_lt _ j [] hjn))
      exact (maskAnd_count_zero_iff _ _ hgi.1 hgj.1 hgi.2 hgj.2).mpr hdisj

/-- Witness for C5 over a concrete lowercase guess list. -/
theorem findBestGuess_pruning_witness :
    (∀ g ∈ [abcdeW, speedW], g.length = 5 ∧ ∀ c ∈ g, 97 ≤ c ∧ c ≤ 122) ∧
    ((∀ g, g ∈ filteredGuesses [abcdeW, speedW] ↔
        g ∈ [abcdeW, speedW] ∧ g.dedup.length = 5) ∧
      ∀ i j, ((i, j) ∈ pairsEvaluated [abcdeW, speedW] ↔
        i < j ∧ j < (filteredGuesses [abcdeW, speedW]).length ∧
        ¬ ∃ c, c ∈ (filteredGuesses [abcdeW, speedW]).getD i [] ∧
               c ∈ (filteredGuesses [abcdeW, speedW]).getD j [])) :=
  ⟨by decide, findBestGuess_pruning [abcdeW, speedW] (by decide)⟩

/-- C2 counterexample: against the target and guess "eeeee", AnalyzeWordle
derives the constraint (letter e, frequency exactly 5, must be in all
positions), which exceeds the enumerator's frequency cap of 3 and so has no
entry in the precomputed database; the bitset path silently skips it and keeps
every candidate, while the structural path filters with the full constraint —
on the one-word candidate list ["abide"] the two paths disagree. -/
theorem demoPaths_diverge :
    validWordsFunc [abideW] [abideW] (AnalyzeWordle eeeeeW eeeeeW).letterInfos
      ≠ (AnalyzeWordle eeeeeW eeeeeW).filterWords [abideW] := by
  have hinfos : (AnalyzeWordle eeeeeW eeeeeW).letterInfos
      = [((101 : Nat),
          (⟨[0, 1, 2, 3, 4], [], 5, true⟩ : LetterInfo))] := by decide
  have hnone : lookupConstraint [abideW] 101
      (⟨[0, 1, 2, 3, 4], [], 5, true⟩ : LetterInfo)
      = none := by
    unfold lookupConstraint
    rw [List.find?_eq_none.mpr ?hnotin]
    case hnotin =>
      intro x hx
      simp only [decide_eq_true_eq]
      intro hcan
      have hle := (mem_gen_elim hx).2
      have h5 : x.freq = 5 := congrArg (fun t => t.2.2.1) hcan
      omega
  have hlhs : validWordsFunc [abideW] [abideW] (AnalyzeWordle eeeeeW eeeeeW).letterInfos
      = [abideW] := by
    rw [hinfos]
    unfold validWordsFunc constraintFold
    rw [if_neg (by decide), List.foldl_cons, hnone]
    decide
  have hrhs : (AnalyzeWordle eeeeeW eeeeeW).filterWords [abideW] = [] := by decide
  rw [hlhs, hrhs]
  simp

/-- C2 (amended): the structural path (FilterWords over the LetterInfos from
AnalyzeWordle) and the bitset path (validWordsFunc intersecting the
precomputed TestLetterConstraint bitvectors looked up by canonical key, with
the candidate list also serving as the database's word list as in DemoMain)
select exactly the same word list whenever every constraint the analysis
produces has an entry in the precomputed database — which the counterexample
shows can fail when a letter occurs more than 3 times in the target. -/
theorem structural_bitset_paths_agree (words : List Word) (target guess : Word)
    (hw : ∀ w ∈ words, w.length = 5) (ht : target.length = 5)
    (hgu : guess.length = 5)
    (hdb : ∀ p ∈ (AnalyzeWordle target guess).letterInfos,
      (lookupConstraint words p.1 p.2).isSome = true) :
    validWordsFunc words words (AnalyzeWordle target guess).letterInfos
      = (AnalyzeWordle target guess).filterWords words := by
  set infos := (AnalyzeWordle target guess).letterInfos with hinfos
  unfold validWordsFunc
  by_cases hempty : words.isEmpty
  · rw [if_pos hempty]
    obtain rfl : words = [] := List.isEmpty_iff.mp hempty
    rfl
  · rw [if_neg hempty]
    have hFlen : (constraintFold words infos (startBv words.length)).bytes.length
        = (words.length + 63) / 64 :=
      bytes_length_constraintFold words infos _ (bytes_length_startBv words.length)
    have hFmem : ∀ i, (constraintFold words infos (startBv words.length)).mem i
        = (decide (i < words.length) && infos.all (fun p =>
            decide (i < words.length) && wscLetter (words.getD i []) p.1 p.2)) := by
      intro i
      rw [mem_constraintFold words i infos _ hdb, mem_startBv]
    have hget : (constraintFold words infos (startBv words.length)).getSetIndices
        = (List.range words.length).filter
            (fun i => infos.all (fun p => wscLetter (words.getD i []) p.1 p.2)) := by
      unfold Bitvector.getSetIndices
      rw [hFlen]
      rw [filter_range_of_bounded _ words.length (64 * ((words.length + 63) / 64))
        (by omega)
        (fun i hi => by
          by_contra hcon
          push_neg at hcon
          rw [hFmem i] at hi
          have hd : decide (i < words.length) = false := by
            simp [Nat.not_lt.mpr hcon]
          rw [hd] at hi
          simp at hi)]
      apply List.filter_congr
      intro i hi
      have hilt : i < words.length := List.mem_range.mp hi
      rw [hFmem i]
      have hd : decide (i < words.length) = true := by simp [hilt]
      rw [hd]
      simp only [Bool.true_and]
    rw [hget]
    rw [foldl_append_if_lt words _ []
      (fun x hx => List.mem_range.mp (List.mem_of_mem_filter hx))]
    rw [List.nil_append]
    rw [filter_map_getD_eq_filter
      (fun w => infos.all (fun p => wscLetter w p.1 p.2)) words]
    rfl

/-- Witness for C2's amended statement: every letter of the target "aabbb"
occurs at most 3 times, the guess "ccccc" yields the single constraint
(letter c absent), and both paths select the full one-word list ["abcde"]. -/
theorem structural_bitset_paths_agree_witness :
    ((∀ w ∈ ([abcdeW] : List Word), w.length = 5) ∧ aabbbW.length = 5 ∧
      cccccW.length = 5 ∧
      (∀ p ∈ (AnalyzeWordle aabbbW cccccW).letterInfos,
        (lookupConstraint [abcdeW] p.1 p.2).isSome = true)) ∧
    validWordsFunc [abcdeW] [abcdeW] (AnalyzeWordle aabbbW cccccW).letterInfos
      = (AnalyzeWordle aabbbW cccccW).filterWords [abcdeW] :=
  ⟨⟨by decide, by decide, by decide, by decide⟩,
   structural_bitset_paths_agree [abcdeW] aabbbW cccccW (by decide) (by decide)
     (by decide) (by decide)⟩

/-- C8 counterexample: on an empty guess vocabulary (so an empty filtered
list), findBestGuess panics reading filteredGuesses[0] — modelled as none —
instead of returning an empty or neutral result. -/
theorem findBestGuess_empty_crashes :
    findBestGuessModel (fun _ _ => 0) [] = none := by decide

/-- C8 (amended): FilterWords over an empty candidate list returns the empty
list and never crashes; findBestGuess, however, returns a result exactly when
all guesses survive mask building and at least two guesses have five distinct
letters — on an empty (or too small) filtered guess list it panics with an
index-out-of-range rather than returning a neutral result. -/
theorem empty_input_behaviour (a : WordleAnalysis) (score : Word → Word → Nat)
    (guesses : List Word) :
    a.filterWords [] = [] ∧
    ((findBestGuessModel score guesses).isSome = true ↔
      (guesses.all maskSafe = true ∧ 2 ≤ (filteredGuesses guesses).length)) := by
  refine ⟨rfl, ?_⟩
  unfold findBestGuessModel
  by_cases h1 : guesses.all maskSafe = true
  · rw [if_pos h1]
    by_cases h2 : 2 ≤ (filteredGuesses guesses).length
    · rw [if_pos h2]
      simp [h1, h2]
    · rw [if_neg h2]
      simp [h2]
  · rw [if_neg h1]
    simp [h1]

end WordleSolving
